import Mathlib

/-!
Verification development for the org-chart core engine
(`src/utils/orgChartUtils.ts` of the sigma-org-chart repository).

The TypeScript source is shallowly embedded below: each exported function of
the source file becomes a Lean definition of the same name, with JavaScript
mutation turned into explicit state passing.  JavaScript objects used as
string-keyed dictionaries (`ExpandCollapseState`) become functions
`String → Option Bool` (`none` = key absent).  `Map`/`Set` values whose only
observable behavior is keyed lookup/membership are modelled over the
underlying lists.

The JavaScript `Map` used by `buildOrgChart` is keyed by `fullName`; records
with duplicate names overwrite each other there.  The specification declares
behavior on duplicate names undefined, and every theorem below about the
tree builder either restricts to duplicate-free inputs or evaluates a
concrete duplicate-free input, where iterating the node map in insertion
order coincides with iterating the input list; the embedding uses the input
list directly for that iteration.  `localeCompare` ordering is modelled as
code-point order on strings.
-/

/-- Employee record (`UserData` in `src/types.ts`). -/
structure UserData where
  fullName : String
  email : String
  slackUsername : String
  profileImage : String
  jobTitle : String
  organizationUnit : String
  manager : String
  office : String
  startDate : String
deriving DecidableEq, Repr

/-- Tree node (`OrgNode` in the source): user payload, id, parentId, level,
isExpanded flag and list of children. -/
inductive OrgNode where
  | mk : UserData → String → Option String → Nat → Bool → List OrgNode → OrgNode
deriving Repr

/-- The employee record wrapped by the node. -/
def OrgNode.user : OrgNode → UserData
  | .mk u _ _ _ _ _ => u

/-- The node id (the record's full name). -/
def OrgNode.id : OrgNode → String
  | .mk _ i _ _ _ _ => i

/-- The node's `parentId` field (`user.manager || null`). -/
def OrgNode.parentId : OrgNode → Option String
  | .mk _ _ p _ _ _ => p

/-- The node's computed level. -/
def OrgNode.level : OrgNode → Nat
  | .mk _ _ _ l _ _ => l

/-- The node's `isExpanded` field. -/
def OrgNode.isExpanded : OrgNode → Bool
  | .mk _ _ _ _ e _ => e

/-- The node's children list. -/
def OrgNode.children : OrgNode → List OrgNode
  | .mk _ _ _ _ _ c => c

/-- Expand/collapse map (`ExpandCollapseState`): JS object keyed by node id;
`none` models an absent key. -/
def ExpandCollapseState := String → Option Bool

/-- The empty expand map `{}`. -/
def emptyExpandState : ExpandCollapseState := fun _ => none

/-- Write one key of an expand map (`state[id] = b`). -/
def writeState (state : ExpandCollapseState) (nodeId : String) (b : Bool) :
    ExpandCollapseState :=
  fun x => if x = nodeId then some b else state x

/-- `buildOrgChart`, second pass guard: `node.parentId && nodes.has(node.parentId)`.
Returns the manager name iff it is non-empty and names some record of the input. -/
def resolvedParent (users : List UserData) (u : UserData) : Option String :=
  if u.manager ≠ "" ∧ (users.map UserData.fullName).contains u.manager then
    some u.manager
  else none

/-- The `parentId` stored in a node: `user.manager || null`. -/
def jsParentId (u : UserData) : Option String :=
  if u.manager = "" then none else some u.manager

/-- `buildOrgChart`, second pass level assignment: iterate the node map in
insertion order; a node with a resolvable parent gets `parent.level + 1`
where `parent.level` is the parent's level *at that point of the iteration*
(all levels start at 0).  Returns the final level of each name. -/
def computeLevels (users : List UserData) : String → Nat :=
  users.foldl
    (fun lv u =>
      match resolvedParent users u with
      | some p => fun x => if x = u.fullName then lv p + 1 else lv x
      | none => lv)
    (fun _ => 0)

/-- `sortChildren`: sort a sibling list ascending by full name
(`localeCompare` modelled as code-point order; the sort itself is modelled
by a stable structural insertion sort, which agrees with any sort under the
same key order). -/
def sortByName (l : List UserData) : List UserData :=
  List.insertionSort (fun a b => a.fullName ≤ b.fullName) l

/-- The children pushed under the node named `p` during the second pass of
`buildOrgChart` (in iteration order), then sorted by `sortChildren`. -/
def childUsers (users : List UserData) (p : String) : List UserData :=
  sortByName (users.filter (fun u => resolvedParent users u = some p))

/-- The subtree rooted at one record, built to the given fuel depth.  Fuel is
an artifact of the embedding: the JavaScript builds the (possibly cyclic)
object graph by mutation, and the forest returned from the roots never
contains a cycle, so fuel `users.length` reproduces it exactly. -/
def buildSubtree (users : List UserData) : Nat → UserData → OrgNode
  | 0, u =>
      .mk u u.fullName (jsParentId u) (computeLevels users u.fullName) true []
  | fuel + 1, u =>
      .mk u u.fullName (jsParentId u) (computeLevels users u.fullName) true
        ((childUsers users u.fullName).map (buildSubtree users fuel))

/-- The records pushed onto `rootNodes` during the second pass (manager
empty or not resolving), in iteration order. -/
def rootUsers (users : List UserData) : List UserData :=
  users.filter (fun u => resolvedParent users u = none)

/-- `buildOrgChart`: transform the flat record list into the forest of root
nodes (a record is a root iff its manager is empty or does not resolve). -/
def buildOrgChart (users : List UserData) : List OrgNode :=
  (rootUsers users).map (buildSubtree users users.length)

/-- Preorder enumeration of the user payloads of a forest. -/
def forestUsers : List OrgNode → List UserData
  | [] => []
  | .mk u _ _ _ _ cs :: rest => u :: (forestUsers cs ++ forestUsers rest)

/-- Preorder enumeration of the node ids of a forest. -/
def forestIds : List OrgNode → List String
  | [] => []
  | .mk _ i _ _ _ cs :: rest => i :: (forestIds cs ++ forestIds rest)

/-- Effective expanded state (`expandState[id] !== false`): an absent key or
an explicit `true` both count as expanded. -/
def effectiveExpanded (state : ExpandCollapseState) (nodeId : String) : Bool :=
  state nodeId != some false

mutual

/-- `getVisibleNodes` inner `traverse`: push the node, then visit its
children only when it is effectively expanded. -/
def visitVisible (expandState : ExpandCollapseState) :
    OrgNode → List OrgNode → List OrgNode
  | n@(.mk _ i _ _ _ cs), visible =>
      let visible := visible ++ [n]
      if expandState i ≠ some false then
        visitVisibleList expandState cs visible
      else visible

/-- `getVisibleNodes`: visit a list of nodes in order. -/
def visitVisibleList (expandState : ExpandCollapseState) :
    List OrgNode → List OrgNode → List OrgNode
  | [], visible => visible
  | c :: rest, visible =>
      visitVisibleList expandState rest (visitVisible expandState c visible)

end

/-- `getVisibleNodes`: all nodes visible under the expand map, in preorder. -/
def getVisibleNodes (roots : List OrgNode) (expandState : ExpandCollapseState) :
    List OrgNode :=
  visitVisibleList expandState roots []

/-- `getDescendantCount`'s `reduce` with its running accumulator. -/
def descendantReduce : List OrgNode → Nat → Nat
  | [], count => count
  | .mk _ _ _ _ _ cs :: rest, count =>
      descendantReduce rest (count + 1 + descendantReduce cs 0)

/-- `getDescendantCount`: total number of descendants of a node. -/
def getDescendantCount (node : OrgNode) : Nat :=
  descendantReduce node.children 0

/-- `getVisibleDescendantCount`'s `reduce` with its running accumulator. -/
def visibleDescendantReduce (expandState : ExpandCollapseState) :
    List OrgNode → Nat → Nat
  | [], count => count
  | .mk _ i _ _ _ cs :: rest, count =>
      visibleDescendantReduce expandState rest
        (count + 1 +
          (if expandState i = some false then 0
           else visibleDescendantReduce expandState cs 0))

/-- `getVisibleDescendantCount`: descendants visible under the expand map
(0 when the node itself is collapsed). -/
def getVisibleDescendantCount (node : OrgNode) (expandState : ExpandCollapseState) :
    Nat :=
  if expandState node.id = some false then 0
  else visibleDescendantReduce expandState node.children 0

mutual

/-- `findNodeInTree`: depth-first search for an id inside one subtree. -/
def findNodeInTree (nodeId : String) : OrgNode → Option OrgNode
  | n@(.mk _ i _ _ _ cs) =>
      if i = nodeId then some n
      else findNodeInChildren nodeId cs

/-- The `for`-loop of `findNodeInTree` over a child list (first hit wins). -/
def findNodeInChildren (nodeId : String) : List OrgNode → Option OrgNode
  | [] => none
  | c :: rest =>
      match findNodeInTree nodeId c with
      | some found => some found
      | none => findNodeInChildren nodeId rest

end

/-- `findNode`: search every root in order, `null` (`none`) when absent. -/
def findNode : List OrgNode → String → Option OrgNode
  | [], _ => none
  | root :: rest, nodeId =>
      match findNodeInTree nodeId root with
      | some found => some found
      | none => findNode rest nodeId

/-- `toggleNodeExpansion`: write the negation of the current effective state
of the id (an absent key is effectively `true`, so it is written `false`). -/
def toggleNodeExpansion (expandState : ExpandCollapseState) (nodeId : String) :
    ExpandCollapseState :=
  writeState expandState nodeId
    (if expandState nodeId ≠ some false then false else true)

mutual

/-- `expandAll` inner `setExpanded` on one node. -/
def setExpandedTrue : OrgNode → ExpandCollapseState → ExpandCollapseState
  | .mk _ i _ _ _ cs, state => setExpandedTrueList cs (writeState state i true)

/-- `expandAll` traversal over a node list. -/
def setExpandedTrueList : List OrgNode → ExpandCollapseState → ExpandCollapseState
  | [], state => state
  | c :: rest, state => setExpandedTrueList rest (setExpandedTrue c state)

end

/-- `expandAll`: every node of the forest maps to an explicit `true`. -/
def expandAll (roots : List OrgNode) : ExpandCollapseState :=
  setExpandedTrueList roots emptyExpandState

mutual

/-- `collapseAll` inner `setCollapsed` on one node at a traversal level. -/
def setCollapsed : OrgNode → Nat → ExpandCollapseState → ExpandCollapseState
  | .mk _ i _ _ _ cs, level, state =>
      setCollapsedList cs (level + 1) (writeState state i (level == 0))

/-- `collapseAll` traversal over a node list. -/
def setCollapsedList : List OrgNode → Nat → ExpandCollapseState → ExpandCollapseState
  | [], _, state => state
  | c :: rest, level, state => setCollapsedList rest level (setCollapsed c level state)

end

/-- `collapseAll`: root level stays expanded, everything else collapses. -/
def collapseAll (roots : List OrgNode) : ExpandCollapseState :=
  setCollapsedList roots 0 emptyExpandState

mutual

/-- `expandToDepth` inner `setExpandedToDepth` on one node. -/
def setExpandedToDepth (depth : Nat) : OrgNode → Nat → ExpandCollapseState →
    ExpandCollapseState
  | .mk _ i _ _ _ cs, currentLevel, state =>
      setExpandedToDepthList depth cs (currentLevel + 1)
        (writeState state i (decide (currentLevel < depth)))

/-- `expandToDepth` traversal over a node list. -/
def setExpandedToDepthList (depth : Nat) : List OrgNode → Nat →
    ExpandCollapseState → ExpandCollapseState
  | [], _, state => state
  | c :: rest, currentLevel, state =>
      setExpandedToDepthList depth rest currentLevel
        (setExpandedToDepth depth c currentLevel state)

end

/-- `expandToDepth`: nodes within the given traversal depth map to `true`,
all other nodes of the forest to `false`. -/
def expandToDepth (roots : List OrgNode) (depth : Nat) : ExpandCollapseState :=
  setExpandedToDepthList depth roots 0 emptyExpandState

mutual

/-- `findPathToNode`: extend the current path with this node; return it when
the id matches, otherwise search the children. -/
def findPathToNode (nodeId : String) : OrgNode → List OrgNode →
    Option (List OrgNode)
  | n@(.mk _ i _ _ _ cs), currentPath =>
      let newPath := currentPath ++ [n]
      if i = nodeId then some newPath
      else findPathInChildren nodeId cs newPath

/-- The `for`-loop of `findPathToNode` over a child list. -/
def findPathInChildren (nodeId : String) : List OrgNode → List OrgNode →
    Option (List OrgNode)
  | [], _ => none
  | c :: rest, newPath =>
      match findPathToNode nodeId c newPath with
      | some path => some path
      | none => findPathInChildren nodeId rest newPath

end

/-- `getNodePath`: path from a root down to the id, `[]` when absent. -/
def getNodePath : List OrgNode → String → List OrgNode
  | [], _ => []
  | root :: rest, nodeId =>
      match findPathToNode nodeId root [] with
      | some path => path
      | none => getNodePath rest nodeId

/-- The `userMap` lookup of the source (`Map` keyed by `fullName`, later
records overwriting earlier ones). -/
def mapLookup (users : List UserData) (x : String) : Option UserData :=
  users.reverse.find? (fun u => u.fullName == x)

/-- The mutable state of `detectCircularRefs`: `visited`, `inStack`, `cycles`
(lists standing in for the JS sets; only membership is observed). -/
structure DfsState where
  visited : List String
  inStack : List String
  cycles : List String
deriving Repr, DecidableEq

/-- The recursive `dfs` of `detectCircularRefs`.  A name already on the stack
is pushed onto `cycles`; a visited name stops; otherwise the name is marked
visited and on-stack, the manager edge (if it resolves) is followed, and the
name is removed from the stack.  Fuel bounds the recursion depth; the source
recursion adds a fresh name to `visited` at every nesting level, so depth
`users.length + 1` is never exhausted. -/
def dfsManagerChain (users : List UserData) : Nat → String → DfsState → DfsState
  | 0, _, s => s
  | fuel + 1, userName, s =>
      if s.inStack.contains userName then
        { s with cycles := s.cycles ++ [userName] }
      else if s.visited.contains userName then s
      else
        let s1 : DfsState :=
          { s with
            visited := s.visited ++ [userName],
            inStack := s.inStack ++ [userName] }
        let s2 :=
          match mapLookup users userName with
          | some user =>
              if user.manager ≠ "" ∧
                  (users.map UserData.fullName).contains user.manager then
                dfsManagerChain users fuel user.manager s1
              else s1
          | none => s1
        { s2 with inStack := s2.inStack.erase userName }

/-- `detectCircularRefs`: run the dfs from every not-yet-visited record, in
input order; returns the pushed cycle ids. -/
def detectCircularRefs (users : List UserData) : List String :=
  (users.foldl
    (fun (s : DfsState) user =>
      if s.visited.contains user.fullName then s
      else dfsManagerChain users (users.length + 1) user.fullName s)
    ⟨[], [], []⟩).cycles

/-- `ValidationResult.stats` of the source. -/
structure ValidationStats where
  totalUsers : Nat
  rootNodes : Nat
  orphanedNodes : Nat
  circularRefs : Nat
deriving Repr, DecidableEq

/-- `ValidationResult` of the source. -/
structure ValidationResult where
  users : List UserData
  warnings : List String
  stats : ValidationStats
deriving Repr, DecidableEq

/-- `validateOrgData`: warnings plus counts; returns the records as-is. -/
def validateOrgData (users : List UserData) : ValidationResult :=
  let userNames := users.map UserData.fullName
  let circularRefs := detectCircularRefs users
  let cycleWarnings :=
    if circularRefs.length > 0 then
      ["Detected " ++ toString circularRefs.length ++ " circular reference(s)"]
    else []
  let orphanedCount :=
    (users.filter (fun u => u.manager != "" && !(userNames.contains u.manager))).length
  let orphanWarnings :=
    if orphanedCount > 0 then
      [toString orphanedCount ++ " employee(s) have managers not in the dataset"]
    else []
  let rootCount :=
    (users.filter (fun u => u.manager == "" || !(userNames.contains u.manager))).length
  { users := users,
    warnings := cycleWarnings ++ orphanWarnings,
    stats :=
      { totalUsers := users.length,
        rootNodes := rootCount,
        orphanedNodes := orphanedCount,
        circularRefs := circularRefs.length } }

/-- `MappingResult` of the source. -/
structure MappingResult where
  mappedUsers : List UserData
  unmappedUsers : List UserData
  trueRoots : List UserData
deriving Repr, DecidableEq

/-- JavaScript `String.prototype.trim`, modelled over the character list:
drop whitespace from both ends. -/
def strTrim (s : String) : String :=
  ⟨((s.data.dropWhile Char.isWhitespace).reverse.dropWhile Char.isWhitespace).reverse⟩

/-- `categorizeMappedUsers`, true roots: no manager or whitespace-only
manager (`!u.manager || u.manager.trim() === ''`). -/
def trueRootsList (users : List UserData) : List UserData :=
  users.filter (fun u => u.manager == "" || strTrim u.manager == "")

/-- `categorizeMappedUsers`, unmapped: non-blank manager that does not name
any record. -/
def unmappedList (users : List UserData) : List UserData :=
  users.filter (fun u =>
    u.manager != "" && strTrim u.manager != "" &&
      !((users.map UserData.fullName).contains u.manager))

/-- The `childrenByManager` index of `categorizeMappedUsers`: the records
whose (non-empty, resolving) manager field equals `m`, in input order. -/
def childrenByManagerGet (users : List UserData) (m : String) : List UserData :=
  users.filter (fun u =>
    u.manager != "" && (users.map UserData.fullName).contains u.manager &&
      u.manager == m)

/-- The BFS `while` loop of `categorizeMappedUsers`: pop the queue front;
skip names already mapped, otherwise mark the name and enqueue the record's
children.  Fuel bounds the iteration count; it is sized generously enough
never to run out (see `bfsMapped_characterization`). -/
def bfsMapped (users : List UserData) : Nat → List String → List UserData →
    List String
  | 0, mappedSet, _ => mappedSet
  | _ + 1, mappedSet, [] => mappedSet
  | fuel + 1, mappedSet, user :: queue =>
      if mappedSet.contains user.fullName then bfsMapped users fuel mappedSet queue
      else
        bfsMapped users fuel (user.fullName :: mappedSet)
          (queue ++ childrenByManagerGet users user.fullName)

/-- `categorizeMappedUsers`: partition into mapped (reachable from a true
root), unmapped (dangling manager) and true roots. -/
def categorizeMappedUsers (users : List UserData) : MappingResult :=
  let trueRoots := trueRootsList users
  let mappedSet :=
    bfsMapped users (users.length * users.length + 2 * users.length + 1) []
      trueRoots
  { mappedUsers := users.filter (fun u => mappedSet.contains u.fullName),
    unmappedUsers := unmappedList users,
    trueRoots := trueRoots }

/-- `FilterCriteria` of the source (`maxLevel: number | null`). -/
structure FilterCriteria where
  orgUnits : List String
  offices : List String
  maxLevel : Option Nat
deriving Repr, DecidableEq

/-- `FilterResult` of the source. -/
structure FilterResult where
  filteredTree : List OrgNode
  matchCount : Nat
  totalCount : Nat
deriving Repr

/-- `nodeMatchesFilter`: everything matches when no criterion is active;
otherwise the max-level, org-unit and office checks are applied in turn. -/
def nodeMatchesFilter (node : OrgNode) (filters : FilterCriteria) : Bool :=
  if filters.orgUnits = [] ∧ filters.offices = [] ∧ filters.maxLevel = none then
    true
  else if (match filters.maxLevel with
           | some m => decide (node.level ≥ m)
           | none => false) then
    false
  else if filters.orgUnits ≠ [] ∧
      (node.user.organizationUnit = "" ∨
        filters.orgUnits.contains node.user.organizationUnit = false) then
    false
  else if filters.offices ≠ [] ∧
      (node.user.office = "" ∨
        filters.offices.contains node.user.office = false) then
    false
  else true

/-- The `countNodes` closure of `filterOrgTree`'s pass-through branch. -/
def countNodes : List OrgNode → Nat
  | [] => 0
  | .mk _ _ _ _ _ cs :: rest => 1 + countNodes cs + countNodes rest

mutual

/-- The recursive `filterNode` closure of `filterOrgTree`, with the mutable
`(matchCount, totalCount)` pair threaded through explicitly. -/
def filterNode (filters : FilterCriteria) :
    OrgNode → Nat × Nat → Option OrgNode × (Nat × Nat)
  | n@(.mk u i p l e cs), counts =>
      let counts := (counts.1, counts.2 + 1)
      let isMatch := nodeMatchesFilter n filters
      let counts := if isMatch then (counts.1 + 1, counts.2) else counts
      let r := filterChildren filters cs counts
      if isMatch = true ∨ r.1.length > 0 then
        (some (.mk u i p l e r.1), r.2)
      else
        (none, r.2)

/-- The `for`-loop of `filterNode` over a child list, keeping the filtered
children that survive. -/
def filterChildren (filters : FilterCriteria) :
    List OrgNode → Nat × Nat → List OrgNode × (Nat × Nat)
  | [], counts => ([], counts)
  | c :: rest, counts =>
      match filterNode filters c counts with
      | (some fc, counts1) =>
          let r := filterChildren filters rest counts1
          (fc :: r.1, r.2)
      | (none, counts1) => filterChildren filters rest counts1

end

/-- `filterOrgTree`: pass the original forest through when no criterion is
active, otherwise prune bottom-up keeping matches and their ancestors. -/
def filterOrgTree (roots : List OrgNode) (filters : FilterCriteria) :
    FilterResult :=
  if filters.orgUnits = [] ∧ filters.offices = [] ∧ filters.maxLevel = none then
    let totalCount := countNodes roots
    { filteredTree := roots, matchCount := totalCount, totalCount := totalCount }
  else
    let r := filterChildren filters roots (0, 0)
    { filteredTree := r.1, matchCount := r.2.1, totalCount := r.2.2 }

/-- `doesNodeMatchFilter`: exposed wrapper around `nodeMatchesFilter`. -/
def doesNodeMatchFilter (node : OrgNode) (filters : FilterCriteria) : Bool :=
  nodeMatchesFilter node filters

/-- The user payloads of a single subtree, in preorder. -/
def treeUsers : OrgNode → List UserData
  | .mk u _ _ _ _ cs => u :: forestUsers cs

/-- The node ids of a single subtree, in preorder. -/
def treeIds : OrgNode → List String
  | .mk _ i _ _ _ cs => i :: forestIds cs

/-- Preorder enumeration of the `level` fields of a forest. -/
def forestLevels : List OrgNode → List Nat
  | [] => []
  | .mk _ _ _ l _ cs :: rest => l :: (forestLevels cs ++ forestLevels rest)

/-- Preorder enumeration of `(node id, traversal depth)` pairs of a forest,
starting at the given depth. -/
def forestIdLevels : List OrgNode → Nat → List (String × Nat)
  | [], _ => []
  | .mk _ i _ _ _ cs :: rest, currentLevel =>
      (i, currentLevel) ::
        (forestIdLevels cs (currentLevel + 1) ++ forestIdLevels rest currentLevel)

/-- Checker for the spec's level invariant below a parent of the given
level: every child carries `parent.level + 1`, recursively. -/
def childLevelsOk : List OrgNode → Nat → Bool
  | [], _ => true
  | .mk _ _ _ l _ cs :: rest, parentLevel =>
      (l == parentLevel + 1) && childLevelsOk cs l && childLevelsOk rest parentLevel

/-- Checker for the spec's level invariant on a whole forest: roots carry
level 0 and every child carries its parent's level plus one. -/
def levelInvariantHolds : List OrgNode → Bool
  | [] => true
  | .mk _ _ _ l _ cs :: rest =>
      (l == 0) && childLevelsOk cs l && levelInvariantHolds rest

mutual

/-- The pruning rule of the spec, without the counters: keep a node iff it
matches directly or at least one of its children is kept, the copy carrying
only the kept children. -/
def keepNode (filters : FilterCriteria) : OrgNode → Option OrgNode
  | n@(.mk u i p l e cs) =>
      let kept := keepChildren filters cs
      if nodeMatchesFilter n filters = true ∨ kept.length > 0 then
        some (.mk u i p l e kept)
      else none

/-- `keepNode` over a sibling list, keeping survivors in order. -/
def keepChildren (filters : FilterCriteria) : List OrgNode → List OrgNode
  | [] => []
  | c :: rest =>
      match keepNode filters c with
      | some fc => fc :: keepChildren filters rest
      | none => keepChildren filters rest

end

/-- Number of nodes of a forest matching the filter directly. -/
def countMatchList (filters : FilterCriteria) : List OrgNode → Nat
  | [] => 0
  | n@(.mk _ _ _ _ _ cs) :: rest =>
      (if nodeMatchesFilter n filters then 1 else 0) +
        countMatchList filters cs + countMatchList filters rest

/-- The parent record a node gets attached to during the second pass of
`buildOrgChart`: the node-map entry named by the resolved manager. -/
def parentRecord (users : List UserData) (u : UserData) : Option UserData :=
  (resolvedParent users u).bind (mapLookup users)

/-- Iterated manager chain on records: `parentIter users k u` follows `k`
parent attachments from `u` (and is `none` when the chain stops earlier). -/
def parentIter (users : List UserData) : Nat → UserData → Option UserData
  | 0, u => some u
  | k + 1, u =>
      match parentRecord users u with
      | some p => parentIter users k p
      | none => none

/-- `t` lies on the manager chain of `v` (possibly `t = v`). -/
def AncestorOf (users : List UserData) (v t : UserData) : Prop :=
  ∃ k, parentIter users k v = some t

/-- Number of records strictly above `u` in the given rank order; the
decreasing measure used to run out the subtree recursion. -/
def rankMeasure (users : List UserData) (rank : String → Nat) (u : UserData) : Nat :=
  (users.filter (fun w => decide (rank u.fullName < rank w.fullName))).length

/-- Names reachable from the seed records of the BFS of
`categorizeMappedUsers` along the `childrenByManager` index. -/
inductive ReachFromSeeds (users : List UserData) (seeds : List UserData) : String → Prop where
  | seed {q : UserData} (hq : q ∈ seeds) : ReachFromSeeds users seeds q.fullName
  | child {c : UserData} {m : String} (hm : ReachFromSeeds users seeds m)
      (hc : c ∈ childrenByManagerGet users m) : ReachFromSeeds users seeds c.fullName

/-- Number of records whose name is not yet in the BFS mapped set (part of
the decreasing measure of the BFS loop). -/
def missingCount (users : List UserData) (mappedSet : List String) : Nat :=
  (users.filter (fun u => !(mappedSet.contains u.fullName))).length

/-- An employee record carrying only the identity fields the core reads:
name, manager, org unit and office. -/
def mkUser (name mgr orgUnit office : String) : UserData :=
  ⟨name, "", "", "", "", orgUnit, mgr, office, ""⟩

/-- Record X reporting to Y (half of a mutual manager cycle). -/
def userX : UserData := mkUser "X" "Y" "" ""

/-- Record Y reporting to X (the other half of the cycle). -/
def userY : UserData := mkUser "Y" "X" "" ""

/-- Record Z with no manager. -/
def userZ : UserData := mkUser "Z" "" "" ""

/-- The mutual-cycle-plus-root input of the cycle-containment scenario. -/
def cycleUsers : List UserData := [userX, userY, userZ]

/-- Root record A of the three-level chain scenario (org unit Sales). -/
def chainA : UserData := mkUser "A" "" "Sales" ""

/-- Record B of the chain, reporting to A (org unit Eng). -/
def chainB : UserData := mkUser "B" "A" "Eng" ""

/-- Record C of the chain, reporting to B (org unit Eng). -/
def chainC : UserData := mkUser "C" "B" "Eng" ""

/-- The chain input A → B → C in parents-before-children order. -/
def chainUsers : List UserData := [chainA, chainB, chainC]

/-- A rank function witnessing acyclicity of the chain input: A below B
below C. -/
def chainRank : String → Nat :=
  fun s => if s = "A" then 0 else if s = "B" then 1 else 2

/-- The forest built from the chain input. -/
def chainForest : List OrgNode := buildOrgChart chainUsers

theorem orgNode_strong_ind (P : OrgNode → Prop)
    (step : ∀ u i p l e cs, (∀ c ∈ cs, P c) → P (.mk u i p l e cs)) :
    ∀ n, P n := by
  have key : ∀ k n, sizeOf (n : OrgNode) ≤ k → P n := by
    intro k
    induction k with
    | zero =>
        intro n hn
        exfalso
        cases n with
        | mk u i p l e cs => simp at hn
    | succ k ih =>
        intro n hn
        cases n with
        | mk u i p l e cs =>
            apply step
            intro c hc
            apply ih
            have h1 : sizeOf c < sizeOf cs := List.sizeOf_lt_of_mem hc
            have h2 : sizeOf (OrgNode.mk u i p l e cs) =
                1 + sizeOf u + sizeOf i + sizeOf p + sizeOf l + sizeOf e + sizeOf cs := by
              simp
            omega
  intro n
  exact key (sizeOf n) n le_rfl

theorem forest_strong_ind (P : List OrgNode → Prop) (hnil : P [])
    (hcons : ∀ u i p l e cs rest, P cs → P rest → P (.mk u i p l e cs :: rest)) :
    ∀ l, P l := by
  have key : ∀ k l, sizeOf (l : List OrgNode) ≤ k → P l := by
    intro k
    induction k with
    | zero =>
        intro l hn
        cases l with
        | nil => exact hnil
        | cons n rest => exfalso; cases n with | mk u i p l e cs => simp at hn
    | succ k ih =>
        intro l hn
        cases l with
        | nil => exact hnil
        | cons n rest =>
            cases n with
            | mk u i p lv e cs =>
                apply hcons
                · apply ih
                  have : sizeOf (OrgNode.mk u i p lv e cs :: rest) =
                      1 + (1 + sizeOf u + sizeOf i + sizeOf p + sizeOf lv + sizeOf e + sizeOf cs) + sizeOf rest := by
                    simp
                  omega
                · apply ih
                  have : sizeOf (OrgNode.mk u i p lv e cs :: rest) =
                      1 + (1 + sizeOf u + sizeOf i + sizeOf p + sizeOf lv + sizeOf e + sizeOf cs) + sizeOf rest := by
                    simp
                  omega
  intro l
  exact key (sizeOf l) l le_rfl

/-- C3, counterexample: for the mutual cycle X → Y, Y → X plus the root Z,
`validateOrgData` reports a cyclic-reference count of 1, not 2 as claimed. -/
theorem c3_counterexample :
    (validateOrgData cycleUsers).stats.circularRefs = 1 ∧
      (validateOrgData cycleUsers).stats.circularRefs ≠ 2 := by
  constructor
  · rfl
  · decide

/-- C3, amended: the cycle detector records one id per detected cycle — the
id of the node already on the dfs stack when the walk closes back into it —
so for X → Y, Y → X plus Z it returns exactly `["X"]` and `validate`'s
cyclic count is 1. -/
theorem c3_amended :
    detectCircularRefs cycleUsers = ["X"] ∧
      (validateOrgData cycleUsers).stats.circularRefs = 1 := by
  exact ⟨rfl, rfl⟩

/-- C5, counterexample: toggling an id absent from the map twice yields a
map with an explicit `true` entry for that id, which is not equal to the
original map (the key never returns to "absent"). -/
theorem c5_counterexample :
    toggleNodeExpansion (toggleNodeExpansion emptyExpandState "A") "A" ≠
      emptyExpandState := by
  intro h
  have h1 := congrFun h "A"
  simp [toggleNodeExpansion, writeState, emptyExpandState] at h1

/-- C5, amended: double-toggling an id preserves the effective expanded
state of every id, and yields a map literally equal to the original
whenever the original already had an explicit entry for the toggled id. -/
theorem c5_amended (m : ExpandCollapseState) (nodeId : String) :
    (∀ x, effectiveExpanded (toggleNodeExpansion (toggleNodeExpansion m nodeId) nodeId) x =
        effectiveExpanded m x) ∧
      (∀ b, m nodeId = some b →
        toggleNodeExpansion (toggleNodeExpansion m nodeId) nodeId = m) := by
  constructor
  · intro x
    by_cases hx : x = nodeId
    · subst hx
      rcases hm : m x with _ | b
      · simp only [effectiveExpanded, toggleNodeExpansion, writeState, hm]
        decide
      · cases b <;> simp [effectiveExpanded, toggleNodeExpansion, writeState, hm]
    · simp [effectiveExpanded, toggleNodeExpansion, writeState, hx]
  · intro b hb
    funext x
    by_cases hx : x = nodeId
    · subst hx
      cases b <;> simp [toggleNodeExpansion, writeState, hb]
    · simp [toggleNodeExpansion, writeState, hx]

/-- C5, witness for the amended theorem: effective-state preservation at the
concrete id "A" over the empty map, and literal equality over a map that
explicitly collapses "A". -/
theorem c5_amended_witness :
    (effectiveExpanded
        (toggleNodeExpansion (toggleNodeExpansion emptyExpandState "A") "A") "A" =
      effectiveExpanded emptyExpandState "A") ∧
      toggleNodeExpansion
          (toggleNodeExpansion (writeState emptyExpandState "A" false) "A") "A" =
        writeState emptyExpandState "A" false :=
  ⟨(c5_amended emptyExpandState "A").1 "A",
    (c5_amended (writeState emptyExpandState "A" false) "A").2 false rfl⟩

/-- C2: the code violates the level invariant.  With the input listed
child-before-parent (C → B, B → A, A root), the second pass computes C's
level from B's level before B's own level has been set, so C ends at level
1 under a parent at level 1; the checker rejects the forest and the
preorder level enumeration reads 0, 1, 1 instead of 0, 1, 2. -/
theorem c2_level_invariant_fails :
    levelInvariantHolds (buildOrgChart [chainC, chainB, chainA]) = false ∧
      forestLevels (buildOrgChart [chainC, chainB, chainA]) = [0, 1, 1] := by
  constructor
  · simp [levelInvariantHolds, childLevelsOk, buildOrgChart, buildSubtree, childUsers,
      sortByName, rootUsers, resolvedParent, computeLevels, chainA, chainB, chainC,
      mkUser, jsParentId, List.insertionSort, List.orderedInsert]
  · simp [forestLevels, buildOrgChart, buildSubtree, childUsers,
      sortByName, rootUsers, resolvedParent, computeLevels, chainA, chainB, chainC,
      mkUser, jsParentId, List.insertionSort, List.orderedInsert]

theorem countNodes_eq_forestUsers_length :
    ∀ l : List OrgNode, countNodes l = (forestUsers l).length := by
  apply forest_strong_ind (fun l => countNodes l = (forestUsers l).length)
  · simp [countNodes, forestUsers]
  · intro u i p l e cs rest ihcs ihrest
    simp [countNodes, forestUsers, ihcs, ihrest]
    omega

/-- C8: filtering with entirely empty criteria returns the original forest
unchanged, with matchCount and totalCount both equal to the total number of
nodes of the forest. -/
theorem c8_filter_pass_through (roots : List OrgNode) :
    filterOrgTree roots { orgUnits := [], offices := [], maxLevel := none } =
      { filteredTree := roots,
        matchCount := (forestUsers roots).length,
        totalCount := (forestUsers roots).length } := by
  simp [filterOrgTree, countNodes_eq_forestUsers_length roots]

theorem visibleDescendantReduce_empty_eq :
    ∀ l : List OrgNode, ∀ acc,
      visibleDescendantReduce emptyExpandState l acc = descendantReduce l acc := by
  apply forest_strong_ind
    (fun l => ∀ acc, visibleDescendantReduce emptyExpandState l acc = descendantReduce l acc)
  · intro acc
    simp [visibleDescendantReduce, descendantReduce]
  · intro u i p l e cs rest ihcs ihrest acc
    simp [visibleDescendantReduce, descendantReduce, emptyExpandState, ihcs, ihrest]

/-- C10: under the empty expand map (every id expanded by default), the
visible-descendant count of any node equals its total descendant count. -/
theorem c10_visible_count_empty_map (node : OrgNode) :
    getVisibleDescendantCount node emptyExpandState = getDescendantCount node := by
  simp [getVisibleDescendantCount, getDescendantCount, emptyExpandState,
    visibleDescendantReduce_empty_eq]

theorem lookup_miss_all (nodeId : String) :
    ∀ l : List OrgNode, nodeId ∉ forestIds l →
      findNodeInChildren nodeId l = none ∧ findNode l nodeId = none ∧
        (∀ path, findPathInChildren nodeId l path = none) ∧
        getNodePath l nodeId = [] := by
  apply forest_strong_ind (fun l => nodeId ∉ forestIds l →
    findNodeInChildren nodeId l = none ∧ findNode l nodeId = none ∧
      (∀ path, findPathInChildren nodeId l path = none) ∧
      getNodePath l nodeId = [])
  · intro _
    exact ⟨rfl, rfl, fun _ => rfl, rfl⟩
  · intro u i p l e cs rest ihcs ihrest h
    have hi : i ≠ nodeId := by
      rintro rfl
      exact h (by simp [forestIds])
    have hcs : nodeId ∉ forestIds cs := fun hx => h (by simp [forestIds, hx])
    have hrest : nodeId ∉ forestIds rest := fun hx => h (by simp [forestIds, hx])
    obtain ⟨h1, h2, h3, h4⟩ := ihcs hcs
    obtain ⟨r1, r2, r3, r4⟩ := ihrest hrest
    refine ⟨?_, ?_, ?_, ?_⟩
    · simp [findNodeInChildren, findNodeInTree, hi, h1, r1]
    · simp [findNode, findNodeInTree, hi, h1, r2]
    · intro path
      simp [findPathInChildren, findPathToNode, hi, h3, r3]
    · simp [getNodePath, findPathToNode, hi, h3, r4]

/-- C9: looking up an id that names no node of the forest yields `none`
from `findNode` and the empty path from `getNodePath`; both lookups are
total functions, so no error is signalled. -/
theorem c9_lookup_miss (roots : List OrgNode) (nodeId : String)
    (h : nodeId ∉ forestIds roots) :
    findNode roots nodeId = none ∧ getNodePath roots nodeId = [] :=
  ⟨(lookup_miss_all nodeId roots h).2.1, (lookup_miss_all nodeId roots h).2.2.2⟩

/-- C9, witness: the id "Q" names no node of the chain forest, and both
lookups come back empty there. -/
theorem c9_lookup_miss_witness :
    findNode chainForest "Q" = none ∧ getNodePath chainForest "Q" = [] :=
  c9_lookup_miss chainForest "Q" (by
    simp [forestIds, chainForest, chainUsers, buildOrgChart, buildSubtree, childUsers,
      sortByName, rootUsers, resolvedParent, computeLevels, chainA, chainB, chainC,
      mkUser, jsParentId, List.insertionSort, List.orderedInsert])

theorem mem_forestIds_of_mem_forestIdLevels :
    ∀ l : List OrgNode, ∀ lvl x ℓx, (x, ℓx) ∈ forestIdLevels l lvl → x ∈ forestIds l := by
  apply forest_strong_ind
    (fun l => ∀ lvl x ℓx, (x, ℓx) ∈ forestIdLevels l lvl → x ∈ forestIds l)
  · intro lvl x ℓx h
    simp [forestIdLevels] at h
  · intro u i p l e cs rest ihcs ihrest lvl x ℓx h
    simp only [forestIdLevels, List.mem_cons, List.mem_append] at h
    rcases h with h | h | h
    · simp [forestIds, (Prod.mk.injEq _ _ _ _).mp h]
    · exact by simp [forestIds, ihcs _ _ _ h]
    · exact by simp [forestIds, ihrest _ _ _ h]

theorem setExpandedToDepthList_not_mem (depth : Nat) (x : String) :
    ∀ l : List OrgNode, ∀ lvl st, x ∉ forestIds l →
      setExpandedToDepthList depth l lvl st x = st x := by
  apply forest_strong_ind (fun l => ∀ lvl st, x ∉ forestIds l →
    setExpandedToDepthList depth l lvl st x = st x)
  · intro lvl st _
    rfl
  · intro u i p l e cs rest ihcs ihrest lvl st h
    have hi : x ≠ i := by
      rintro rfl
      exact h (by simp [forestIds])
    have hcs : x ∉ forestIds cs := fun hx => h (by simp [forestIds, hx])
    have hrest : x ∉ forestIds rest := fun hx => h (by simp [forestIds, hx])
    calc setExpandedToDepthList depth (.mk u i p l e cs :: rest) lvl st x
        = setExpandedToDepthList depth cs (lvl + 1)
            (writeState st i (decide (lvl < depth))) x := by
          simp [setExpandedToDepthList, setExpandedToDepth, ihrest _ _ hrest]
      _ = writeState st i (decide (lvl < depth)) x := ihcs _ _ hcs
      _ = st x := by simp [writeState, hi]

theorem setExpandedToDepthList_mem_value (depth : Nat) :
    ∀ l : List OrgNode, ∀ lvl st x ℓx, (forestIds l).Nodup →
      (x, ℓx) ∈ forestIdLevels l lvl →
      setExpandedToDepthList depth l lvl st x = some (decide (ℓx < depth)) := by
  apply forest_strong_ind (fun l => ∀ lvl st x ℓx, (forestIds l).Nodup →
    (x, ℓx) ∈ forestIdLevels l lvl →
    setExpandedToDepthList depth l lvl st x = some (decide (ℓx < depth)))
  · intro lvl st x ℓx _ h
    simp [forestIdLevels] at h
  · intro u i p l e cs rest ihcs ihrest lvl st x ℓx hnd hmem
    simp only [forestIds, List.nodup_cons] at hnd
    obtain ⟨hnotin, hndapp⟩ := hnd
    have hndcs : (forestIds cs).Nodup := hndapp.of_append_left
    have hndrest : (forestIds rest).Nodup := hndapp.of_append_right
    have hdisj : ∀ a, a ∈ forestIds cs → a ∉ forestIds rest :=
      fun a ha hb => (List.disjoint_of_nodup_append hndapp) ha hb
    simp only [forestIdLevels, List.mem_cons, List.mem_append] at hmem
    rcases hmem with hmem | hmem | hmem
    · obtain ⟨hx, hℓ⟩ := (Prod.mk.injEq _ _ _ _).mp hmem
      subst hx
      subst hℓ
      have hics : x ∉ forestIds cs := fun hx => hnotin (by simp [hx])
      have hirest : x ∉ forestIds rest := fun hx => hnotin (by simp [hx])
      calc setExpandedToDepthList depth (.mk u x p l e cs :: rest) ℓx st x
          = setExpandedToDepthList depth cs (ℓx + 1)
              (writeState st x (decide (ℓx < depth))) x := by
            simp [setExpandedToDepthList, setExpandedToDepth,
              setExpandedToDepthList_not_mem depth x rest _ _ hirest]
        _ = writeState st x (decide (ℓx < depth)) x :=
            setExpandedToDepthList_not_mem depth x cs _ _ hics
        _ = some (decide (ℓx < depth)) := by simp [writeState]
    · have hxcs : x ∈ forestIds cs := mem_forestIds_of_mem_forestIdLevels cs _ _ _ hmem
      have hxrest : x ∉ forestIds rest := hdisj x hxcs
      calc setExpandedToDepthList depth (.mk u i p l e cs :: rest) lvl st x
          = setExpandedToDepthList depth cs (lvl + 1)
              (writeState st i (decide (lvl < depth))) x := by
            simp [setExpandedToDepthList, setExpandedToDepth,
              setExpandedToDepthList_not_mem depth x rest _ _ hxrest]
        _ = some (decide (ℓx < depth)) := ihcs _ _ _ _ hndcs hmem
    · calc setExpandedToDepthList depth (.mk u i p l e cs :: rest) lvl st x
          = setExpandedToDepthList depth rest lvl
              (setExpandedToDepth depth (.mk u i p l e cs) lvl st) x := by
            simp [setExpandedToDepthList]
        _ = some (decide (ℓx < depth)) := ihrest _ _ _ _ hndrest hmem

/-- C6: over a forest with distinct node ids, `expandToDepth d` maps every
node at forest level ℓ to `some (ℓ < d)` — `true` below the depth bound,
`false` at or beyond it; in particular, for the chain A → B → C,
`expandToDepth 1` followed by `getVisibleNodes` yields exactly A and B. -/
theorem c6_expand_to_depth :
    (∀ (roots : List OrgNode) (depth : Nat) (x : String) (ℓx : Nat),
        (forestIds roots).Nodup → (x, ℓx) ∈ forestIdLevels roots 0 →
        expandToDepth roots depth x = some (decide (ℓx < depth))) ∧
      (getVisibleNodes chainForest (expandToDepth chainForest 1)).map OrgNode.id =
        ["A", "B"] := by
  constructor
  · intro roots depth x ℓx hnd hmem
    exact setExpandedToDepthList_mem_value depth roots 0 emptyExpandState x ℓx hnd hmem
  · simp [getVisibleNodes, visitVisibleList, visitVisible, expandToDepth,
      setExpandedToDepthList, setExpandedToDepth, writeState, emptyExpandState,
      OrgNode.id, OrgNode.children, chainForest, chainUsers, buildOrgChart,
      buildSubtree, childUsers, sortByName, rootUsers, resolvedParent,
      computeLevels, chainA, chainB, chainC, mkUser, jsParentId,
      List.insertionSort, List.orderedInsert]

/-- C6, witness: in the chain forest, node B sits at level 1, and
`expandToDepth 1` maps it to `false` (1 < 1 fails). -/
theorem c6_expand_to_depth_witness :
    expandToDepth chainForest 1 "B" = some false := by
  have h := c6_expand_to_depth.1 chainForest 1 "B" 1
    (by simp [forestIds, chainForest, chainUsers, buildOrgChart, buildSubtree,
      childUsers, sortByName, rootUsers, resolvedParent, computeLevels,
      chainA, chainB, chainC, mkUser, jsParentId, List.insertionSort,
      List.orderedInsert])
    (by simp [forestIdLevels, chainForest, chainUsers, buildOrgChart, buildSubtree,
      childUsers, sortByName, rootUsers, resolvedParent, computeLevels,
      chainA, chainB, chainC, mkUser, jsParentId, List.insertionSort,
      List.orderedInsert])
  simpa using h
theorem filterChildren_spec (filters : FilterCriteria) :
    ∀ l : List OrgNode, ∀ counts : Nat × Nat,
      filterChildren filters l counts =
        (keepChildren filters l,
          (counts.1 + countMatchList filters l, counts.2 + countNodes l)) := by
  apply forest_strong_ind (fun l => ∀ counts : Nat × Nat,
    filterChildren filters l counts =
      (keepChildren filters l,
        (counts.1 + countMatchList filters l, counts.2 + countNodes l)))
  · intro counts
    simp [filterChildren, keepChildren, countMatchList, countNodes]
  · intro u i p l e cs rest ihcs ihrest counts
    have hhead : filterNode filters (.mk u i p l e cs) counts =
        (keepNode filters (.mk u i p l e cs),
          (counts.1 + (if nodeMatchesFilter (.mk u i p l e cs) filters then 1 else 0) +
              countMatchList filters cs,
            counts.2 + 1 + countNodes cs)) := by
      simp only [filterNode, keepNode]
      rw [ihcs]
      cases hm : nodeMatchesFilter (.mk u i p l e cs) filters
      · simp only [hm, Bool.false_eq_true, if_false, false_or]
        split <;> simp
      · simp only [hm, if_true, true_or]
    simp only [filterChildren]
    rw [hhead]
    cases hk : keepNode filters (.mk u i p l e cs) with
    | some fc =>
        simp only []
        rw [ihrest]
        cases hm : nodeMatchesFilter (.mk u i p l e cs) filters <;>
          simp [keepChildren, hk, countMatchList, countNodes, hm] <;> try omega
    | none =>
        simp only []
        rw [ihrest]
        cases hm : nodeMatchesFilter (.mk u i p l e cs) filters <;>
          simp [keepChildren, hk, countMatchList, countNodes, hm] <;> try omega

theorem keepChildren_length_pos_iff (filters : FilterCriteria) (cs : List OrgNode) :
    0 < (keepChildren filters cs).length ↔ ∃ c ∈ cs, (keepNode filters c).isSome := by
  induction cs with
  | nil => simp [keepChildren]
  | cons c rest ih =>
      cases hk : keepNode filters c with
      | some fc => simp [keepChildren, hk]
      | none => simp [keepChildren, hk, ih]

theorem keepNode_isSome_iff (filters : FilterCriteria) (n : OrgNode) :
    (keepNode filters n).isSome = true ↔
      (nodeMatchesFilter n filters = true ∨
        ∃ c ∈ n.children, (keepNode filters c).isSome) := by
  cases n with
  | mk u i p l e cs =>
      have h1 : (keepNode filters (.mk u i p l e cs)).isSome = true ↔
          (nodeMatchesFilter (.mk u i p l e cs) filters = true ∨
            0 < (keepChildren filters cs).length) := by
        simp only [keepNode]
        split
        · exact iff_of_true rfl ‹_›
        · exact iff_of_false (by simp) ‹_›
      rw [h1, keepChildren_length_pos_iff]
      simp [OrgNode.children]

/-- C4: with at least one active criterion, `filterOrgTree` returns exactly
the declarative prune (`keepChildren`): a node is kept iff it matches
directly or one of its children is kept, kept nodes are copies carrying
only their kept children, matchCount counts exactly the directly-matching
nodes and totalCount counts every node of the input; the pure embedding
leaves the input forest untouched.  On the chain A (Sales) → B (Eng) →
C (Eng) filtered by orgUnits = ["Eng"], all three nodes survive with
matchCount 2 and totalCount 3. -/
theorem c4_filter_engine :
    (∀ (roots : List OrgNode) (filters : FilterCriteria),
        ¬(filters.orgUnits = [] ∧ filters.offices = [] ∧ filters.maxLevel = none) →
        filterOrgTree roots filters =
          { filteredTree := keepChildren filters roots,
            matchCount := countMatchList filters roots,
            totalCount := (forestUsers roots).length }) ∧
      (∀ (filters : FilterCriteria) (n : OrgNode),
        (keepNode filters n).isSome = true ↔
          (nodeMatchesFilter n filters = true ∨
            ∃ c ∈ n.children, (keepNode filters c).isSome)) ∧
      filterOrgTree chainForest { orgUnits := ["Eng"], offices := [], maxLevel := none } =
        { filteredTree := chainForest, matchCount := 2, totalCount := 3 } := by
  refine ⟨?_, keepNode_isSome_iff, ?_⟩
  · intro roots filters hactive
    rw [filterOrgTree, if_neg hactive, filterChildren_spec]
    simp [countNodes_eq_forestUsers_length]
  · simp [filterOrgTree, filterChildren, filterNode, nodeMatchesFilter,
      OrgNode.level, OrgNode.user, chainForest, chainUsers, buildOrgChart,
      buildSubtree, childUsers, sortByName, rootUsers, resolvedParent,
      computeLevels, chainA, chainB, chainC, mkUser, jsParentId,
      List.insertionSort, List.orderedInsert]

/-- C4, witness: the refinement applied at the concrete chain forest with
the active org-unit criterion ["Eng"]. -/
theorem c4_filter_engine_witness :
    filterOrgTree chainForest { orgUnits := ["Eng"], offices := [], maxLevel := none } =
      { filteredTree :=
          keepChildren { orgUnits := ["Eng"], offices := [], maxLevel := none } chainForest,
        matchCount :=
          countMatchList { orgUnits := ["Eng"], offices := [], maxLevel := none } chainForest,
        totalCount := (forestUsers chainForest).length } :=
  c4_filter_engine.1 chainForest { orgUnits := ["Eng"], offices := [], maxLevel := none }
    (by simp)

theorem reachFromSeeds_nil (users : List UserData) (x : String) :
    ¬ ReachFromSeeds users [] x := by
  intro h
  induction h with
  | seed hq => simp at hq
  | child _ _ ih => exact ih

theorem reachFromSeeds_mono {users : List UserData} {s1 s2 : List UserData}
    (hsub : ∀ q ∈ s1, q ∈ s2) {x : String} :
    ReachFromSeeds users s1 x → ReachFromSeeds users s2 x := by
  intro h
  induction h with
  | seed hq => exact .seed (hsub _ hq)
  | child _ hc ih => exact .child ih hc

theorem reach_cons_absorb (users : List UserData) (mapped : List String)
    (u : UserData) (rest : List UserData) (hu : u.fullName ∈ mapped)
    (hinv : ∀ m ∈ mapped, ∀ c ∈ childrenByManagerGet users m,
      c.fullName ∈ mapped ∨ c ∈ u :: rest) :
    ∀ x, ReachFromSeeds users (u :: rest) x →
      x ∈ mapped ∨ ReachFromSeeds users rest x := by
  intro x h
  induction h with
  | seed hq =>
      rcases List.mem_cons.mp hq with heq | hq'
      · subst heq
        exact .inl hu
      · exact .inr (.seed hq')
  | child _ hc ih =>
      rcases ih with hmapped | hrest
      · rcases hinv _ hmapped _ hc with hcm | hcq
        · exact .inl hcm
        · rcases List.mem_cons.mp hcq with heq | hcr
          · subst heq
            exact .inl hu
          · exact .inr (.seed hcr)
      · exact .inr (.child hrest hc)

theorem reach_cons_to_add (users : List UserData) (u : UserData)
    (rest : List UserData) (mapped : List String)
    (hinv : ∀ m ∈ mapped, ∀ c ∈ childrenByManagerGet users m,
      c.fullName ∈ mapped ∨ c ∈ u :: rest) :
    ∀ x, ReachFromSeeds users (u :: rest) x →
      x ∈ (u.fullName :: mapped) ∨
        ReachFromSeeds users (rest ++ childrenByManagerGet users u.fullName) x := by
  intro x h
  induction h with
  | seed hq =>
      rcases List.mem_cons.mp hq with heq | hq'
      · subst heq
        exact .inl (List.mem_cons_self _ _)
      · exact .inr (.seed (List.mem_append_left _ hq'))
  | child _ hc ih =>
      rename_i m hm
      rcases ih with hmem | hreach
      · rcases List.mem_cons.mp hmem with heq | hmapped
        · subst heq
          exact .inr (.seed (List.mem_append_right _ hc))
        · rcases hinv _ hmapped _ hc with hcm | hcq
          · exact .inl (List.mem_cons_of_mem _ hcm)
          · rcases List.mem_cons.mp hcq with heq | hcr
            · subst heq
              exact .inl (List.mem_cons_self _ _)
            · exact .inr (.seed (List.mem_append_left _ hcr))
      · exact .inr (.child hreach hc)

theorem reach_add_to_cons (users : List UserData) (u : UserData)
    (rest : List UserData) :
    ∀ x, ReachFromSeeds users (rest ++ childrenByManagerGet users u.fullName) x →
      ReachFromSeeds users (u :: rest) x := by
  intro x h
  induction h with
  | seed hq =>
      rcases List.mem_append.mp hq with h1 | h2
      · exact .seed (List.mem_cons_of_mem _ h1)
      · exact .child (.seed (List.mem_cons_self _ _)) h2
  | child _ hc ih => exact .child ih hc

theorem length_filter_le_of_pred {α : Type} (p q : α → Bool)
    (himp : ∀ x, q x = true → p x = true) :
    ∀ l : List α, (l.filter q).length ≤ (l.filter p).length := by
  intro l
  induction l with
  | nil => simp
  | cons a rest ih =>
      rw [List.filter_cons, List.filter_cons]
      cases hqa : q a
      · cases hpa : p a <;> simp <;> omega
      · rw [himp a hqa]
        simp
        omega

theorem length_filter_lt_of_pred {α : Type} (p q : α → Bool)
    (himp : ∀ x, q x = true → p x = true) :
    ∀ l : List α, ∀ u ∈ l, p u = true → q u = false →
      (l.filter q).length < (l.filter p).length := by
  intro l
  induction l with
  | nil => intro u hu; simp at hu
  | cons a rest ih =>
      intro u hu hp hq
      rcases List.mem_cons.mp hu with heq | hu'
      · subst heq
        rw [List.filter_cons, List.filter_cons, hp, hq]
        have := length_filter_le_of_pred p q himp rest
        simp
        omega
      · cases hpa : p a
        · have hqa : q a = false := by
            cases hqa : q a
            · rfl
            · exact absurd (himp a hqa) (by simp [hpa])
          rw [List.filter_cons, List.filter_cons, hpa, hqa]
          simpa using ih u hu' hp hq
        · cases hqa : q a
          · rw [List.filter_cons, List.filter_cons, hpa, hqa]
            have := ih u hu' hp hq
            simp
            omega
          · rw [List.filter_cons, List.filter_cons, hpa, hqa]
            have := ih u hu' hp hq
            simp
            omega

theorem childrenByManagerGet_sub (users : List UserData) (m : String) :
    ∀ c ∈ childrenByManagerGet users m, c ∈ users := by
  intro c hc
  exact (List.mem_filter.mp hc).1

theorem bfsMapped_characterization (users : List UserData) :
    ∀ fuel (mappedSet : List String) (queue : List UserData),
      (∀ q ∈ queue, q ∈ users) →
      (∀ m ∈ mappedSet, ∀ c ∈ childrenByManagerGet users m,
        c.fullName ∈ mappedSet ∨ c ∈ queue) →
      missingCount users mappedSet * (users.length + 1) + queue.length < fuel →
      ∀ x, x ∈ bfsMapped users fuel mappedSet queue ↔
        (x ∈ mappedSet ∨ ReachFromSeeds users queue x) := by
  intro fuel
  induction fuel with
  | zero =>
      intro mapped queue _ _ hfuel
      omega
  | succ fuel ih =>
      intro mapped queue hq hinv hfuel x
      cases queue with
      | nil =>
          rw [bfsMapped]
          exact ⟨.inl, fun h => h.resolve_right (reachFromSeeds_nil users x)⟩
      | cons u rest =>
          have hu_users : u ∈ users := hq u (List.mem_cons_self _ _)
          by_cases hu : mapped.contains u.fullName = true
          · -- already-mapped front element: skip it
            rw [bfsMapped, if_pos hu]
            have humem : u.fullName ∈ mapped := by
              simpa using hu
            have hinv' : ∀ m ∈ mapped, ∀ c ∈ childrenByManagerGet users m,
                c.fullName ∈ mapped ∨ c ∈ rest := by
              intro m hm c hc
              rcases hinv m hm c hc with h1 | h2
              · exact .inl h1
              · rcases List.mem_cons.mp h2 with heq | h3
                · subst heq
                  exact .inl humem
                · exact .inr h3
            have hrec := ih mapped rest
              (fun q hqm => hq q (List.mem_cons_of_mem _ hqm)) hinv'
              (by simp only [List.length_cons] at hfuel; omega) x
            rw [hrec]
            constructor
            · rintro (h1 | h2)
              · exact .inl h1
              · exact .inr (reachFromSeeds_mono (fun q hqm => List.mem_cons_of_mem _ hqm) h2)
            · rintro (h1 | h2)
              · exact .inl h1
              · exact reach_cons_absorb users mapped u rest humem hinv x h2
          · -- new front element: mark it and enqueue its children
            rw [bfsMapped, if_neg hu]
            have hnotmem : u.fullName ∉ mapped := by
              simpa using hu
            have hq' : ∀ q ∈ rest ++ childrenByManagerGet users u.fullName, q ∈ users := by
              intro q hqm
              rcases List.mem_append.mp hqm with h1 | h2
              · exact hq q (List.mem_cons_of_mem _ h1)
              · exact childrenByManagerGet_sub users _ q h2
            have hinv' : ∀ m ∈ u.fullName :: mapped,
                ∀ c ∈ childrenByManagerGet users m,
                c.fullName ∈ u.fullName :: mapped ∨
                  c ∈ rest ++ childrenByManagerGet users u.fullName := by
              intro m hm c hc
              rcases List.mem_cons.mp hm with heq | hmapped
              · subst heq
                exact .inr (List.mem_append_right _ hc)
              · rcases hinv m hmapped c hc with h1 | h2
                · exact .inl (List.mem_cons_of_mem _ h1)
                · rcases List.mem_cons.mp h2 with heq | h3
                  · subst heq
                    exact .inl (List.mem_cons_self _ _)
                  · exact .inr (List.mem_append_left _ h3)
            have hmiss : missingCount users (u.fullName :: mapped) < missingCount users mapped := by
              apply length_filter_lt_of_pred
                (fun v => !(mapped.contains v.fullName))
                (fun v => !((u.fullName :: mapped).contains v.fullName))
                ?_ users u hu_users ?_ ?_
              · intro y hy
                have h1 : y.fullName ∉ u.fullName :: mapped := by simpa using hy
                have h2 : y.fullName ∉ mapped := fun hm => h1 (List.mem_cons_of_mem _ hm)
                simpa using h2
              · simpa using hnotmem
              · simp
            have hchild : (childrenByManagerGet users u.fullName).length ≤ users.length :=
              List.length_filter_le _ _
            have hrec := ih (u.fullName :: mapped)
              (rest ++ childrenByManagerGet users u.fullName) hq' hinv'
              (by
                have hmul : (missingCount users (u.fullName :: mapped) + 1) *
                    (users.length + 1) ≤
                    missingCount users mapped * (users.length + 1) :=
                  Nat.mul_le_mul_right _ hmiss
                rw [Nat.add_mul, Nat.one_mul] at hmul
                simp only [List.length_append, List.length_cons] at hfuel ⊢
                omega) x
            rw [hrec]
            constructor
            · rintro (h1 | h2)
              · rcases List.mem_cons.mp h1 with heq | h3
                · subst heq
                  exact .inr (.seed (List.mem_cons_self _ _))
                · exact .inl h3
              · exact .inr (reach_add_to_cons users u rest x h2)
            · rintro (h1 | h2)
              · exact .inl (List.mem_cons_of_mem _ h1)
              · exact reach_cons_to_add users u rest mapped hinv x h2

/-- C7: `categorize` places exactly the records reachable from a true root
along the manager→children index into `mappedUsers`; in the mutual-cycle
input X → Y, Y → X plus Z, only Z is a true root and X and Y appear in
neither `mappedUsers` nor `unmappedUsers`. -/
theorem c7_categorize_mapped :
    (∀ (users : List UserData) (u : UserData),
        u ∈ (categorizeMappedUsers users).mappedUsers ↔
          (u ∈ users ∧ ReachFromSeeds users (trueRootsList users) u.fullName)) ∧
      ((categorizeMappedUsers cycleUsers).trueRoots = [userZ] ∧
        userX ∉ (categorizeMappedUsers cycleUsers).mappedUsers ∧
        userY ∉ (categorizeMappedUsers cycleUsers).mappedUsers ∧
        userX ∉ (categorizeMappedUsers cycleUsers).unmappedUsers ∧
        userY ∉ (categorizeMappedUsers cycleUsers).unmappedUsers) := by
  constructor
  · intro users u
    have hmiss : missingCount users [] = users.length := by
      simp [missingCount]
    have hroots : (trueRootsList users).length ≤ users.length :=
      List.length_filter_le _ _
    have hchar := bfsMapped_characterization users
      (users.length * users.length + 2 * users.length + 1) [] (trueRootsList users)
      (fun q hq => (List.mem_filter.mp hq).1)
      (by intro m hm; simp at hm)
      (by
        rw [hmiss, Nat.mul_succ]
        omega)
      u.fullName
    simp only [categorizeMappedUsers, MappingResult.mappedUsers]
    rw [List.mem_filter]
    constructor
    · rintro ⟨h1, h2⟩
      refine ⟨h1, ?_⟩
      have h3 : u.fullName ∈ bfsMapped users
          (users.length * users.length + 2 * users.length + 1) [] (trueRootsList users) := by
        simpa using h2
      rcases (hchar.mp h3) with h4 | h4
      · simp at h4
      · exact h4
    · rintro ⟨h1, h2⟩
      refine ⟨h1, ?_⟩
      have h3 := hchar.mpr (.inr h2)
      simpa using h3
  · refine ⟨by decide, by decide, by decide, by decide, by decide⟩

theorem resolvedParent_name_mem {users : List UserData} {u : UserData} {p : String}
    (h : resolvedParent users u = some p) : ∃ v ∈ users, v.fullName = p := by
  rw [resolvedParent] at h
  split at h
  · rename_i hcond
    obtain ⟨-, hmem⟩ := hcond
    cases h
    simpa using hmem
  · cases h

theorem mapLookup_mem_name {users : List UserData} {x : String} {w : UserData}
    (h : mapLookup users x = some w) : w ∈ users ∧ w.fullName = x := by
  rw [mapLookup] at h
  refine ⟨List.mem_reverse.mp (List.mem_of_find?_eq_some h), ?_⟩
  have := List.find?_some h
  simpa using this

theorem mapLookup_self {users : List UserData}
    (hnd : (users.map UserData.fullName).Nodup) {u : UserData} (hu : u ∈ users) :
    mapLookup users u.fullName = some u := by
  have hsome : (users.reverse.find? (fun w => w.fullName == u.fullName)).isSome := by
    apply List.find?_isSome.mpr
    exact ⟨u, List.mem_reverse.mpr hu, by simp⟩
  rw [mapLookup]
  obtain ⟨w, hw⟩ := Option.isSome_iff_exists.mp hsome
  rw [hw]
  have hwmem : w ∈ users := List.mem_reverse.mp (List.mem_of_find?_eq_some hw)
  have hwname : w.fullName = u.fullName := by simpa using List.find?_some hw
  have : w = u := List.inj_on_of_nodup_map hnd hwmem hu hwname
  rw [this]

theorem parentRecord_spec {users : List UserData} {u p : UserData}
    (h : parentRecord users u = some p) :
    p ∈ users ∧ resolvedParent users u = some p.fullName := by
  rw [parentRecord] at h
  cases hr : resolvedParent users u with
  | none => rw [hr] at h; cases h
  | some pn =>
      rw [hr] at h
      rw [Option.some_bind] at h
      obtain ⟨hmem, hname⟩ := mapLookup_mem_name h
      exact ⟨hmem, by rw [hname]⟩

theorem rank_parentRecord {users : List UserData} {rank : String → Nat}
    (hrk : ∀ u ∈ users, ∀ v ∈ users,
      resolvedParent users u = some v.fullName → rank v.fullName < rank u.fullName)
    {u p : UserData} (hu : u ∈ users) (h : parentRecord users u = some p) :
    rank p.fullName < rank u.fullName := by
  obtain ⟨hp, hres⟩ := parentRecord_spec h
  exact hrk u hu p hp hres

theorem parentIter_mem_rank {users : List UserData} {rank : String → Nat}
    (hrk : ∀ u ∈ users, ∀ v ∈ users,
      resolvedParent users u = some v.fullName → rank v.fullName < rank u.fullName) :
    ∀ k (u t : UserData), u ∈ users → parentIter users k u = some t →
      t ∈ users ∧ rank t.fullName ≤ rank u.fullName := by
  intro k
  induction k with
  | zero =>
      intro u t hu h
      cases h
      exact ⟨hu, le_rfl⟩
  | succ k ih =>
      intro u t hu h
      rw [parentIter] at h
      cases hp : parentRecord users u with
      | none => rw [hp] at h; cases h
      | some p =>
          rw [hp] at h
          have hpmem := (parentRecord_spec hp).1
          have hrank := rank_parentRecord hrk hu hp
          obtain ⟨ht, hle⟩ := ih p t hpmem h
          exact ⟨ht, le_trans hle (le_of_lt hrank)⟩

theorem parentIter_comp (users : List UserData) :
    ∀ i j (u : UserData), parentIter users (i + j) u =
      match parentIter users i u with
      | some t => parentIter users j t
      | none => none := by
  intro i
  induction i with
  | zero =>
      intro j u
      simp [parentIter]
  | succ i ih =>
      intro j u
      have hadd : i + 1 + j = (i + j) + 1 := by omega
      rw [hadd, parentIter, parentIter]
      cases hp : parentRecord users u with
      | none => rfl
      | some p => exact ih j p

theorem childUsers_mem {users : List UserData} {p : String} {c : UserData} :
    c ∈ childUsers users p ↔ (c ∈ users ∧ resolvedParent users c = some p) := by
  rw [childUsers, sortByName]
  have hperm := List.perm_insertionSort (fun a b : UserData => a.fullName ≤ b.fullName)
    (List.filter (fun u => decide (resolvedParent users u = some p)) users)
  rw [hperm.mem_iff, List.mem_filter]
  simp

theorem childUsers_nodup {users : List UserData}
    (hnd : (users.map UserData.fullName).Nodup) (p : String) :
    (childUsers users p).Nodup := by
  rw [childUsers, sortByName]
  have hperm := List.perm_insertionSort (fun a b : UserData => a.fullName ≤ b.fullName)
    (List.filter (fun u => decide (resolvedParent users u = some p)) users)
  rw [hperm.nodup_iff]
  exact (hnd.of_map _).filter _

theorem childUsers_step {users : List UserData}
    (hnd : (users.map UserData.fullName).Nodup) {u c : UserData}
    (hu : u ∈ users) (hc : c ∈ childUsers users u.fullName) :
    parentRecord users c = some u := by
  obtain ⟨-, hres⟩ := childUsers_mem.mp hc
  rw [parentRecord, hres, Option.some_bind]
  exact mapLookup_self hnd hu

theorem rank_child {users : List UserData} {rank : String → Nat}
    (hrk : ∀ u ∈ users, ∀ v ∈ users,
      resolvedParent users u = some v.fullName → rank v.fullName < rank u.fullName)
    {u c : UserData} (hu : u ∈ users) (hc : c ∈ childUsers users u.fullName) :
    rank u.fullName < rank c.fullName := by
  obtain ⟨hcm, hres⟩ := childUsers_mem.mp hc
  exact hrk c hcm u hu hres

theorem rankMeasure_child_lt {users : List UserData} {rank : String → Nat}
    (hrk : ∀ u ∈ users, ∀ v ∈ users,
      resolvedParent users u = some v.fullName → rank v.fullName < rank u.fullName)
    {u c : UserData} (hu : u ∈ users) (hc : c ∈ childUsers users u.fullName) :
    rankMeasure users rank c < rankMeasure users rank u := by
  have hlt := rank_child hrk hu hc
  have hcm := (childUsers_mem.mp hc).1
  apply length_filter_lt_of_pred
    (fun w => decide (rank u.fullName < rank w.fullName))
    (fun w => decide (rank c.fullName < rank w.fullName))
    ?_ users c hcm ?_ ?_
  · intro y hy
    have h1 : rank c.fullName < rank y.fullName := of_decide_eq_true hy
    exact decide_eq_true (lt_trans hlt h1)
  · exact decide_eq_true hlt
  · simp

theorem rankMeasure_lt_length {users : List UserData} {rank : String → Nat}
    {u : UserData} (hu : u ∈ users) :
    rankMeasure users rank u < users.length := by
  have h := length_filter_lt_of_pred
    (fun _ : UserData => true)
    (fun w => decide (rank u.fullName < rank w.fullName))
    (fun _ _ => rfl) users u hu rfl (by simp)
  rw [rankMeasure]
  calc (users.filter (fun w => decide (rank u.fullName < rank w.fullName))).length
      < (users.filter (fun _ => true)).length := h
    _ = users.length := by simp

theorem ancestor_refl (users : List UserData) (v : UserData) : AncestorOf users v v :=
  ⟨0, rfl⟩

theorem ancestor_rank {users : List UserData} {rank : String → Nat}
    (hrk : ∀ u ∈ users, ∀ v ∈ users,
      resolvedParent users u = some v.fullName → rank v.fullName < rank u.fullName)
    {v t : UserData} (hv : v ∈ users) (h : AncestorOf users v t) :
    t ∈ users ∧ rank t.fullName ≤ rank v.fullName := by
  obtain ⟨k, hk⟩ := h
  exact parentIter_mem_rank hrk k v t hv hk

theorem ancestor_child_false {users : List UserData} {rank : String → Nat}
    (hrk : ∀ u ∈ users, ∀ v ∈ users,
      resolvedParent users u = some v.fullName → rank v.fullName < rank u.fullName)
    {u c : UserData} (hu : u ∈ users) (hc : c ∈ childUsers users u.fullName) :
    ¬ AncestorOf users u c := by
  intro h
  have h1 := (ancestor_rank hrk hu h).2
  have h2 := rank_child hrk hu hc
  omega

theorem parentIter_comp_some {users : List UserData} {i : Nat} {u t : UserData}
    (h : parentIter users i u = some t) (j : Nat) :
    parentIter users (i + j) u = parentIter users j t := by
  rw [parentIter_comp users i j u, h]

theorem parentIter_comp_none {users : List UserData} {i : Nat} {u : UserData}
    (h : parentIter users i u = none) (j : Nat) :
    parentIter users (i + j) u = none := by
  rw [parentIter_comp users i j u, h]

theorem parentIter_one (users : List UserData) (u : UserData) :
    parentIter users 1 u = parentRecord users u := by
  cases hp : parentRecord users u <;> simp [parentIter, hp]

theorem ancestor_step_back {users : List UserData} {v u : UserData} {j : Nat}
    (h : parentIter users (j + 1) v = some u) :
    ∃ c, parentIter users j v = some c ∧ parentRecord users c = some u := by
  cases hj : parentIter users j v with
  | none =>
      rw [parentIter_comp_none hj 1] at h
      cases h
  | some c =>
      rw [parentIter_comp_some hj 1, parentIter_one] at h
      exact ⟨c, rfl, h⟩

theorem ancestor_extend {users : List UserData} {v c u : UserData} {k : Nat}
    (hk : parentIter users k v = some c) (hp : parentRecord users c = some u) :
    parentIter users (k + 1) v = some u := by
  rw [parentIter_comp_some hk 1, parentIter_one, hp]

theorem ancestor_unique_child {users : List UserData} {rank : String → Nat}
    (hnd : (users.map UserData.fullName).Nodup)
    (hrk : ∀ u ∈ users, ∀ v ∈ users,
      resolvedParent users u = some v.fullName → rank v.fullName < rank u.fullName)
    {v u : UserData} (hv : v ∈ users) (hu : u ∈ users)
    (hA : AncestorOf users v u) (hne : v ≠ u) :
    ∃ c', c' ∈ childUsers users u.fullName ∧ AncestorOf users v c' ∧
      (∀ c ∈ childUsers users u.fullName, AncestorOf users v c → c = c') := by
  obtain ⟨k, hk⟩ := hA
  cases k with
  | zero =>
      cases hk
      exact absurd rfl hne
  | succ j =>
      obtain ⟨c', hc'iter, hc'rec⟩ := ancestor_step_back hk
      obtain ⟨hc'mem, hc'res⟩ := parentRecord_spec hc'rec
      have hc'child : c' ∈ childUsers users u.fullName := by
        rw [childUsers_mem]
        have hc'users : c' ∈ users := (parentIter_mem_rank hrk j v c' hv hc'iter).1
        exact ⟨hc'users, by rw [hc'res]⟩
      refine ⟨c', hc'child, ⟨j, hc'iter⟩, ?_⟩
      intro c hc hAc
      obtain ⟨k2, hk2⟩ := hAc
      rcases le_or_lt k2 j with hle | hlt
      · -- c occurs no later than c' on the chain
        have : k2 + (j - k2) = j := by omega
        have hstep : parentIter users (j - k2) c = some c' := by
          have h3 := parentIter_comp_some hk2 (j - k2)
          rw [this] at h3
          rw [← h3]
          exact hc'iter
        cases hd : j - k2 with
        | zero =>
            rw [hd, parentIter] at hstep
            cases hstep
            rfl
        | succ d =>
            exfalso
            have hone : parentIter users 1 c = some u := by
              rw [parentIter_one]
              exact childUsers_step hnd hu hc
            have hcomp2 := parentIter_comp_some hone d
            rw [hd] at hstep
            have hdu : parentIter users d u = some c' := by
              rw [← hcomp2]
              have hadd : 1 + d = d + 1 := by omega
              rw [hadd]
              exact hstep
            have hAuc' : AncestorOf users u c' := ⟨d, hdu⟩
            have h1 := (ancestor_rank hrk hu hAuc').2
            have h2 := rank_child hrk hu hc'child
            omega
      · -- c would occur strictly after u on the chain
        exfalso
        have hcomp := parentIter_comp users (j + 1) (k2 - (j + 1)) v
        have : (j + 1) + (k2 - (j + 1)) = k2 := by omega
        rw [this, hk2, hk] at hcomp
        have hAuc : AncestorOf users u c := ⟨k2 - (j + 1), hcomp.symm⟩
        have h1 := (ancestor_rank hrk hu hAuc).2
        have h2 := rank_child hrk hu hc
        omega

theorem ancestor_no_child {users : List UserData}
    (hnd : (users.map UserData.fullName).Nodup)
    {v u : UserData} (hu : u ∈ users) (hnA : ¬ AncestorOf users v u) :
    ∀ c ∈ childUsers users u.fullName, ¬ AncestorOf users v c := by
  intro c hc hAc
  obtain ⟨k2, hk2⟩ := hAc
  exact hnA ⟨k2 + 1, ancestor_extend hk2 (childUsers_step hnd hu hc)⟩

theorem forestUsers_cons (n : OrgNode) (rest : List OrgNode) :
    forestUsers (n :: rest) = treeUsers n ++ forestUsers rest := by
  cases n with
  | mk u i p l e cs => simp [forestUsers, treeUsers]

theorem treeUsers_buildSubtree_succ (users : List UserData) (fuel : Nat) (u : UserData) :
    treeUsers (buildSubtree users (fuel + 1) u) =
      u :: forestUsers ((childUsers users u.fullName).map (buildSubtree users fuel)) := by
  simp [buildSubtree, treeUsers]

theorem treeUsers_buildSubtree_zero (users : List UserData) (u : UserData) :
    treeUsers (buildSubtree users 0 u) = [u] := by
  simp [buildSubtree, treeUsers, forestUsers]

theorem count_forestUsers_map (v : UserData) (f : UserData → OrgNode) :
    ∀ l : List UserData,
      (forestUsers (l.map f)).count v =
        (l.map (fun w => (treeUsers (f w)).count v)).sum := by
  intro l
  induction l with
  | nil => simp [forestUsers]
  | cons w rest ih =>
      rw [List.map_cons, forestUsers_cons, List.count_append, List.map_cons,
        List.sum_cons, ih]

theorem mem_forestUsers_map {x : UserData} (f : UserData → OrgNode) :
    ∀ l : List UserData, x ∈ forestUsers (l.map f) ↔ ∃ w ∈ l, x ∈ treeUsers (f w) := by
  intro l
  induction l with
  | nil => simp [forestUsers]
  | cons w rest ih =>
      rw [List.map_cons, forestUsers_cons, List.mem_append, ih]
      simp

theorem mem_users_of_mem_treeUsers (users : List UserData) :
    ∀ fuel, ∀ u ∈ users, ∀ x ∈ treeUsers (buildSubtree users fuel u), x ∈ users := by
  intro fuel
  induction fuel with
  | zero =>
      intro u hu x hx
      rw [treeUsers_buildSubtree_zero] at hx
      have hxu : x = u := by simpa using hx
      exact hxu ▸ hu
  | succ fuel ih =>
      intro u hu x hx
      rw [treeUsers_buildSubtree_succ] at hx
      rcases List.mem_cons.mp hx with heq | hx'
      · exact heq ▸ hu
      · obtain ⟨c, hcmem, hxc⟩ := (mem_forestUsers_map _ _).mp hx'
        exact ih c (childUsers_mem.mp hcmem).1 x hxc

theorem sum_map_zero {α : Type} (l : List α) (f : α → Nat)
    (h : ∀ y ∈ l, f y = 0) : (l.map f).sum = 0 := by
  apply List.sum_eq_zero
  intro x hx
  obtain ⟨y, hy, rfl⟩ := List.mem_map.mp hx
  exact h y hy

theorem sum_map_one {α : Type} (f : α → Nat) (x : α) :
    ∀ l : List α, l.Nodup → x ∈ l → f x = 1 →
      (∀ y ∈ l, y ≠ x → f y = 0) → (l.map f).sum = 1 := by
  intro l
  induction l with
  | nil =>
      intro _ hx
      simp at hx
  | cons a rest ih =>
      intro hnd hx hfx hrest
      rw [List.map_cons, List.sum_cons]
      rcases List.mem_cons.mp hx with heq | hx'
      · subst heq
        rw [hfx]
        have hz : (rest.map f).sum = 0 := by
          apply sum_map_zero
          intro y hy
          apply hrest y (List.mem_cons_of_mem _ hy)
          intro hyx
          subst hyx
          exact (List.nodup_cons.mp hnd).1 hy
        omega
      · have hane : a ≠ x := by
          intro hax
          subst hax
          exact (List.nodup_cons.mp hnd).1 hx'
        rw [hrest a (List.mem_cons_self _ _) hane]
        have hs := ih (List.nodup_cons.mp hnd).2 hx' hfx
          (fun y hy hne => hrest y (List.mem_cons_of_mem _ hy) hne)
        omega

theorem count_treeUsers_buildSubtree {users : List UserData} {rank : String → Nat}
    (hnd : (users.map UserData.fullName).Nodup)
    (hrk : ∀ u ∈ users, ∀ v ∈ users,
      resolvedParent users u = some v.fullName → rank v.fullName < rank u.fullName) :
    ∀ fuel, ∀ u ∈ users, rankMeasure users rank u < fuel → ∀ v ∈ users,
      ((AncestorOf users v u → (treeUsers (buildSubtree users fuel u)).count v = 1) ∧
        (¬ AncestorOf users v u → (treeUsers (buildSubtree users fuel u)).count v = 0)) := by
  intro fuel
  induction fuel with
  | zero =>
      intro u _ hm
      exact absurd hm (Nat.not_lt_zero _)
  | succ fuel ih =>
      intro u hu hm v hv
      have hchildm : ∀ c ∈ childUsers users u.fullName,
          c ∈ users ∧ rankMeasure users rank c < fuel := by
        intro c hc
        refine ⟨(childUsers_mem.mp hc).1, ?_⟩
        have := rankMeasure_child_lt hrk hu hc
        omega
      constructor
      · intro hA
        by_cases hvu : v = u
        · subst hvu
          have hsum : ((childUsers users v.fullName).map
              (fun w => (treeUsers (buildSubtree users fuel w)).count v)).sum = 0 := by
            apply sum_map_zero
            intro c hc
            exact (ih c (hchildm c hc).1 (hchildm c hc).2 v hv).2
              (ancestor_child_false hrk hu hc)
          rw [treeUsers_buildSubtree_succ, List.count_cons, count_forestUsers_map, hsum]
          simp
        · obtain ⟨c', hc'mem, hAc', huniq⟩ := ancestor_unique_child hnd hrk hv hu hA hvu
          have hsum : ((childUsers users u.fullName).map
              (fun w => (treeUsers (buildSubtree users fuel w)).count v)).sum = 1 := by
            apply sum_map_one _ c' _ (childUsers_nodup hnd _) hc'mem
            · exact (ih c' (hchildm c' hc'mem).1 (hchildm c' hc'mem).2 v hv).1 hAc'
            · intro y hy hne
              apply (ih y (hchildm y hy).1 (hchildm y hy).2 v hv).2
              intro hAy
              exact hne (huniq y hy hAy)
          have hvu2 : ¬u = v := fun h => hvu h.symm
          rw [treeUsers_buildSubtree_succ, List.count_cons, count_forestUsers_map, hsum]
          simp [hvu2]
      · intro hnA
        have hvu : v ≠ u := fun h => hnA (h ▸ ancestor_refl users v)
        have hsum : ((childUsers users u.fullName).map
            (fun w => (treeUsers (buildSubtree users fuel w)).count v)).sum = 0 := by
          apply sum_map_zero
          intro c hc
          exact (ih c (hchildm c hc).1 (hchildm c hc).2 v hv).2
            (ancestor_no_child hnd hu hnA c hc)
        have hvu2 : ¬u = v := fun h => hvu h.symm
        rw [treeUsers_buildSubtree_succ, List.count_cons, count_forestUsers_map, hsum]
        simp [hvu2]

theorem root_parentRecord_none {users : List UserData} {r : UserData}
    (hr : r ∈ rootUsers users) : parentRecord users r = none := by
  have hres : resolvedParent users r = none := by
    have := (List.mem_filter.mp hr).2
    simpa using this
  rw [parentRecord, hres]
  rfl

theorem parentIter_root_none {users : List UserData} {r : UserData}
    (hr : r ∈ rootUsers users) (d : Nat) :
    parentIter users (d + 1) r = none := by
  have hnone := root_parentRecord_none hr
  rw [parentIter, hnone]

theorem exists_root {users : List UserData} {rank : String → Nat}
    (hnd : (users.map UserData.fullName).Nodup)
    (hrk : ∀ u ∈ users, ∀ v ∈ users,
      resolvedParent users u = some v.fullName → rank v.fullName < rank u.fullName) :
    ∀ v ∈ users, ∃ r, r ∈ rootUsers users ∧ AncestorOf users v r := by
  have key : ∀ n, ∀ v ∈ users, rank v.fullName < n →
      ∃ r, r ∈ rootUsers users ∧ AncestorOf users v r := by
    intro n
    induction n with
    | zero =>
        intro v _ h
        exact absurd h (Nat.not_lt_zero _)
    | succ n ih =>
        intro v hv hlt
        by_cases hres : resolvedParent users v = none
        · refine ⟨v, ?_, ancestor_refl users v⟩
          rw [rootUsers, List.mem_filter]
          exact ⟨hv, by simp [hres]⟩
        · obtain ⟨pn, hpn⟩ := Option.ne_none_iff_exists'.mp hres
          obtain ⟨w, hw, hwname⟩ := resolvedParent_name_mem hpn
          have hlook : mapLookup users pn = some w := by
            rw [← hwname]
            exact mapLookup_self hnd hw
          have hprec : parentRecord users v = some w := by
            rw [parentRecord, hpn, Option.some_bind, hlook]
          have hrank : rank w.fullName < rank v.fullName :=
            hrk v hv w hw (by rw [hpn, hwname])
          obtain ⟨r, hr, hA⟩ := ih w hw (by omega)
          obtain ⟨k, hk⟩ := hA
          refine ⟨r, hr, k + 1, ?_⟩
          have hone : parentIter users 1 v = some w := by
            rw [parentIter_one]
            exact hprec
          have hcomp := parentIter_comp_some hone k
          have hadd : 1 + k = k + 1 := by omega
          rw [hadd] at hcomp
          rw [hcomp]
          exact hk
  intro v hv
  exact key (rank v.fullName + 1) v hv (by omega)

theorem root_unique_aux {users : List UserData} {v r1 r2 : UserData} {k1 k2 : Nat}
    (hle : k1 ≤ k2) (h1 : parentIter users k1 v = some r1)
    (h2 : parentIter users k2 v = some r2) (hr1 : r1 ∈ rootUsers users) :
    r1 = r2 := by
  have hcomp := parentIter_comp_some h1 (k2 - k1)
  have hadd : k1 + (k2 - k1) = k2 := by omega
  rw [hadd, h2] at hcomp
  cases hd : k2 - k1 with
  | zero =>
      rw [hd, parentIter] at hcomp
      cases hcomp
      rfl
  | succ d =>
      rw [hd, parentIter_root_none hr1 d] at hcomp
      cases hcomp

theorem root_unique {users : List UserData} {v r1 r2 : UserData}
    (hA1 : AncestorOf users v r1) (hA2 : AncestorOf users v r2)
    (hr1 : r1 ∈ rootUsers users) (hr2 : r2 ∈ rootUsers users) :
    r1 = r2 := by
  obtain ⟨k1, hk1⟩ := hA1
  obtain ⟨k2, hk2⟩ := hA2
  rcases le_total k1 k2 with hle | hle
  · exact root_unique_aux hle hk1 hk2 hr1
  · exact (root_unique_aux hle hk2 hk1 hr2).symm

theorem count_forestUsers_buildOrgChart {users : List UserData} {rank : String → Nat}
    (hnd : (users.map UserData.fullName).Nodup)
    (hrk : ∀ u ∈ users, ∀ v ∈ users,
      resolvedParent users u = some v.fullName → rank v.fullName < rank u.fullName) :
    ∀ v, (forestUsers (buildOrgChart users)).count v = users.count v := by
  intro v
  by_cases hv : v ∈ users
  · rw [buildOrgChart, count_forestUsers_map]
    obtain ⟨r0, hr0, hA0⟩ := exists_root hnd hrk v hv
    have hr0u : r0 ∈ users := (List.mem_filter.mp hr0).1
    have hsum : ((rootUsers users).map
        (fun w => (treeUsers (buildSubtree users users.length w)).count v)).sum = 1 := by
      apply sum_map_one _ r0 _ ((hnd.of_map _).filter _) hr0
      · exact (count_treeUsers_buildSubtree hnd hrk users.length r0 hr0u
          (rankMeasure_lt_length hr0u) v hv).1 hA0
      · intro y hy hne
        have hyu : y ∈ users := (List.mem_filter.mp hy).1
        apply (count_treeUsers_buildSubtree hnd hrk users.length y hyu
          (rankMeasure_lt_length hyu) v hv).2
        intro hAy
        exact hne (root_unique hAy hA0 hy hr0)
    rw [hsum, List.count_eq_one_of_mem (hnd.of_map _) hv]
  · have h1 : v ∉ forestUsers (buildOrgChart users) := by
      intro hmem
      rw [buildOrgChart] at hmem
      obtain ⟨r, hr, hin⟩ := (mem_forestUsers_map _ _).mp hmem
      exact hv (mem_users_of_mem_treeUsers users users.length r
        (List.mem_filter.mp hr).1 v hin)
    rw [List.count_eq_zero.mpr h1, List.count_eq_zero.mpr hv]

theorem forestIds_cons (n : OrgNode) (rest : List OrgNode) :
    forestIds (n :: rest) = treeIds n ++ forestIds rest := by
  cases n with
  | mk u i p l e cs => simp [forestIds, treeIds]

theorem treeIds_buildSubtree (users : List UserData) :
    ∀ fuel (u : UserData),
      treeIds (buildSubtree users fuel u) =
        (treeUsers (buildSubtree users fuel u)).map UserData.fullName := by
  intro fuel
  induction fuel with
  | zero =>
      intro u
      simp [buildSubtree, treeIds, treeUsers, forestIds, forestUsers]
  | succ f ihf =>
      intro u
      have hlist : ∀ l : List UserData,
          forestIds (l.map (buildSubtree users f)) =
            (forestUsers (l.map (buildSubtree users f))).map UserData.fullName := by
        intro l
        induction l with
        | nil => simp [forestIds, forestUsers]
        | cons w l2 ihl =>
            rw [List.map_cons, forestIds_cons, forestUsers_cons, ihf w, ihl,
              List.map_append]
      simp [buildSubtree, treeIds, treeUsers, hlist]

theorem forestIds_buildSubtree_map (users : List UserData) :
    ∀ fuel (l : List UserData),
      forestIds (l.map (buildSubtree users fuel)) =
        (forestUsers (l.map (buildSubtree users fuel))).map UserData.fullName := by
  intro fuel l
  induction l with
  | nil => simp [forestIds, forestUsers]
  | cons u l2 ihl =>
      rw [List.map_cons, forestIds_cons, forestUsers_cons, treeIds_buildSubtree,
        ihl, List.map_append]

/-- C1, counterexample: for the two-record mutual cycle X → Y, Y → X, the
returned forest is empty, so the id "X" occurs zero times in the forest
while it occurs once among the input records — the forest does not contain
every input record. -/
theorem c1_counterexample :
    (forestIds (buildOrgChart [userX, userY])).count "X" = 0 ∧
      ([userX, userY].map UserData.fullName).count "X" = 1 := by
  constructor
  · simp [buildOrgChart, rootUsers, resolvedParent, userX, userY, mkUser, forestIds]
  · decide

/-- C1, amended: for every non-empty record list with pairwise-distinct
full names whose resolvable-manager relation is acyclic (witnessed by a
rank strictly decreasing from each record to its resolved manager), the
multiset of user payloads over the whole returned forest is a permutation
of the input records — every record appears in exactly one node — and the
multiset of node ids equals the multiset of input names. -/
theorem c1_amended (users : List UserData) (rank : String → Nat)
    (_hne : users ≠ [])
    (hnd : (users.map UserData.fullName).Nodup)
    (hrk : ∀ u ∈ users, ∀ v ∈ users,
      resolvedParent users u = some v.fullName → rank v.fullName < rank u.fullName) :
    (forestUsers (buildOrgChart users)).Perm users ∧
      (forestIds (buildOrgChart users)).Perm (users.map UserData.fullName) := by
  have hperm : (forestUsers (buildOrgChart users)).Perm users :=
    List.perm_iff_count.mpr (count_forestUsers_buildOrgChart hnd hrk)
  refine ⟨hperm, ?_⟩
  have hids : forestIds (buildOrgChart users) =
      (forestUsers (buildOrgChart users)).map UserData.fullName := by
    rw [buildOrgChart]
    exact forestIds_buildSubtree_map users users.length (rootUsers users)
  rw [hids]
  exact hperm.map _

/-- C1, witness: the amended theorem applied to the acyclic chain
A → B → C with the explicit rank A ↦ 0, B ↦ 1, C ↦ 2. -/
theorem c1_amended_witness :
    (forestUsers (buildOrgChart chainUsers)).Perm chainUsers ∧
      (forestIds (buildOrgChart chainUsers)).Perm (chainUsers.map UserData.fullName) :=
  c1_amended chainUsers chainRank (by decide) (by decide) (by decide)
